import Mathlib

/-!
Verification of the nanover-utils recording tools: the shared-state log
reader (`read_state.py`) and the live client recorder
(`recording/nanover-client-recorder.py`).

Bytes are modelled as `List Nat` (each element a byte value), Python
`int.to_bytes`/`int.from_bytes` with explicit little-endian digit
functions, Python dicts as insertion-ordered association lists, and the
JSON-like state values as the inductive type `Value`.
-/

/-- Little-endian digits of `n`, exactly `k` bytes (the value written by
`int.to_bytes(k, "little")` when `n < 2^(8*k)`). -/
def toBytesLE : Nat → Nat → List Nat
  | 0, _ => []
  | k + 1, n => n % 256 :: toBytesLE k (n / 256)

/-- Value of a little-endian byte list, as read by `int.from_bytes(_, "little")`
or `struct.unpack` of an unsigned little-endian field. -/
def fromBytesLE : List Nat → Nat
  | [] => 0
  | b :: bs => b + 256 * fromBytesLE bs

/-- Python `n.to_bytes(k, "little", signed=False)`: the `k` little-endian
bytes of `n`, or `none` (OverflowError) when `n` does not fit. -/
def pyToBytes (k n : Nat) : Option (List Nat) :=
  if n < 2 ^ (8 * k) then some (toBytesLE k n) else none

/-- Modelled from the spec: the defined 64-bit magic-number constant.  The
constant itself is imported from the external nanover package (it is not in
this repository's sources); every claim here depends only on it being one
fixed `u64` value, which this stand-in provides. -/
def MAGIC_NUMBER : Nat := 6661355757386708963

/-- Header of a recording file (`read_state.Header`). -/
structure Header where
  magic_number : Nat
  format_version : Nat
  deriving DecidableEq

/-- Embeds `Header.as_bytes`: magic number then format version, each as 8
little-endian bytes; `none` models the OverflowError of `to_bytes` on a
field that does not fit in 8 bytes. -/
def Header.as_bytes (h : Header) : Option (List Nat) := do
  let magic_number_bytes ← pyToBytes 8 h.magic_number
  let format_version_bytes ← pyToBytes 8 h.format_version
  pure (magic_number_bytes ++ format_version_bytes)

/-- Errors of the reading pipeline (`InvalidMagicNumber`,
`UnsupportedFormatVersion` and friends from `nanover.recording.reading`,
plus the Python runtime errors the rewrite path can raise). -/
inductive ReadError where
  | invalidMagicNumber
  | unsupportedFormatVersion (got : Nat) (supported : List Nat)
  | truncated
  | decodeFailure
  | valueError
  | overflowError
  deriving DecidableEq

/-- Modelled from the spec: `read_u64` of `nanover.recording.reading` (not in
src) reads 8 bytes and returns their unsigned little-endian value together
with the remaining stream, or nothing at end of stream. -/
def read_u64 (bs : List Nat) : Option (Nat × List Nat) :=
  if 8 ≤ bs.length then some (fromBytesLE (bs.take 8), bs.drop 8) else none

/-- Versions accepted by `read_header` (`supported_format_versions = (2,)`). -/
def supported_format_versions : List Nat := [2]

/-- Embeds `read_state.read_header`: read the magic number, reject it if it
differs from `MAGIC_NUMBER`, read the format version, reject it if it is not
supported, and return the header with the rest of the stream. -/
def read_header (bs : List Nat) : Except ReadError (Header × List Nat) :=
  match read_u64 bs with
  | none => .error .truncated
  | some (magic_number, rest) =>
      if magic_number ≠ MAGIC_NUMBER then .error .invalidMagicNumber
      else
        match read_u64 rest with
        | none => .error .truncated
        | some (format_version, rest2) =>
            if format_version ∉ supported_format_versions then
              .error (.unsupportedFormatVersion format_version supported_format_versions)
            else .ok (⟨magic_number, format_version⟩, rest2)

theorem length_toBytesLE (k n : Nat) : (toBytesLE k n).length = k := by
  induction k generalizing n with
  | zero => rfl
  | succ k ih => simp [toBytesLE, ih]

theorem fromBytesLE_toBytesLE (k n : Nat) (h : n < 2 ^ (8 * k)) :
    fromBytesLE (toBytesLE k n) = n := by
  induction k generalizing n with
  | zero =>
      have : n = 0 := Nat.lt_one_iff.mp (by simpa using h)
      simp [toBytesLE, fromBytesLE, this]
  | succ k ih =>
      have hdiv : n / 256 < 2 ^ (8 * k) := by
        rw [Nat.div_lt_iff_lt_mul (by norm_num)]
        calc n < 2 ^ (8 * (k + 1)) := h
        _ = 2 ^ (8 * k) * 256 := by ring
      simp [toBytesLE, fromBytesLE, ih _ hdiv, Nat.mod_add_div]

theorem take_append_of_length (xs ys : List Nat) (k : Nat) (h : xs.length = k) :
    (xs ++ ys).take k = xs := by
  subst h; simp

theorem drop_append_of_length (xs ys : List Nat) (k : Nat) (h : xs.length = k) :
    (xs ++ ys).drop k = ys := by
  subst h; simp

/-- The `read_u64` of a stream that starts with the 8-byte encoding of a
small value reads that value back. -/
theorem read_u64_toBytesLE (n : Nat) (rest : List Nat) (h : n < 2 ^ (8 * 8)) :
    read_u64 (toBytesLE 8 n ++ rest) = some (n, rest) := by
  have hlen : (toBytesLE 8 n).length = 8 := length_toBytesLE 8 n
  simp only [read_u64, List.length_append, hlen]
  rw [if_pos (by omega), take_append_of_length _ _ _ hlen,
    drop_append_of_length _ _ _ hlen, fromBytesLE_toBytesLE 8 n h]

/-- JSON-like state values: the untagged Python values produced by decoding
a state update (None, bool, number, str, dict, list). -/
inductive Value where
  | null
  | bool (b : Bool)
  | num (n : Int)
  | str (s : String)
  | map (entries : List (String × Value))
  | arr (elems : List Value)

/-- Python `value is None` as a boolean test on a `Value`. -/
def pyIsNone : Value → Bool
  | .null => true
  | _ => false

/-- State diff as carried by `nanover.utilities.change_buffers.DictionaryChange`:
an updates mapping and a list of removal keys (spec §3: updates + removals). -/
structure DictionaryChange where
  updates : List (String × Value)
  removals : List String

/-- Does the association list carry the key?  (Python `key in dict`.) -/
def hasKey (d : List (String × Value)) (k : String) : Bool :=
  d.any fun p => p.1 = k

/-- Python `d[k] = v` on an insertion-ordered dict: overwrite the value in
place when the key is present, append the pair otherwise. -/
def dictInsert (d : List (String × Value)) (k : String) (v : Value) :
    List (String × Value) :=
  if hasKey d k then d.map fun p => if p.1 = k then (k, v) else p
  else d ++ [(k, v)]

/-- Python `d.update(u)`: insert every pair of `u` in order. -/
def dictUpdate (d u : List (String × Value)) : List (String × Value) :=
  u.foldl (fun acc p => dictInsert acc p.1 p.2) d

/-- Python dict built from a sequence of key/value pairs (dict literal or
dict comprehension): later occurrences of a key overwrite earlier ones. -/
def dictOfPairs (pairs : List (String × Value)) : List (String × Value) :=
  pairs.foldl (fun acc p => dictInsert acc p.1 p.2) []

/-- Python `d[k]`, as an option (first entry with the key; entries are
unique in any list built by `dictInsert`). -/
def dictGet (d : List (String × Value)) (k : String) : Option Value :=
  match d with
  | [] => none
  | p :: rest => if p.1 = k then some p.2 else dictGet rest k

/-- Embeds `read_state.iter_updates`: yield each timestamp with the raw
updates mapping of its change. -/
def iter_updates (changes : List (Nat × DictionaryChange)) :
    List (Nat × List (String × Value)) :=
  changes.map fun p => (p.1, p.2.updates)

/-- One step of the `iter_full_states` loop body:
`aggregate_state.update(change.updates)` followed by the comprehension that
keeps only the entries whose value `is not None`. -/
def stepState (aggregate_state : List (String × Value)) (change : DictionaryChange) :
    List (String × Value) :=
  (dictUpdate aggregate_state change.updates).filter fun p => !pyIsNone p.2

/-- Loop of `iter_full_states` with an explicit accumulator: yield the
filtered accumulator after each change. -/
def iterFullStatesFrom (aggregate_state : List (String × Value)) :
    List (Nat × DictionaryChange) → List (Nat × List (String × Value))
  | [] => []
  | (timestamp, change) :: rest =>
      let next := stepState aggregate_state change
      (timestamp, next) :: iterFullStatesFrom next rest

/-- Embeds `read_state.iter_full_states`: fold the changes over an initially
empty aggregate state. -/
def iter_full_states (changes : List (Nat × DictionaryChange)) :
    List (Nat × List (String × Value)) :=
  iterFullStatesFrom [] changes

/-- When the pattern matches the front of the list, return the remainder of
the list after the pattern; otherwise nothing. -/
def matchesAt : List Char → List Char → Option (List Char)
  | [], l => some l
  | _ :: _, [] => none
  | p :: ps, c :: cs => if p = c then matchesAt ps cs else none

/-- Scan for CPython `str.replace` with a non-empty pattern `p0 :: ptail`:
the first argument counts characters still to drop because they belong to a
match whose replacement has already been emitted; at count zero, a match
starting at the current character emits the replacement and schedules the
rest of the match to be dropped. -/
def pyReplaceCore (p0 : Char) (ptail rep : List Char) : Nat → List Char → List Char
  | _ + 1, [] => []
  | n + 1, _ :: rest => pyReplaceCore p0 ptail rep n rest
  | 0, [] => []
  | 0, c :: rest =>
      if p0 = c then
        match matchesAt ptail rest with
        | some _ => rep ++ pyReplaceCore p0 ptail rep ptail.length rest
        | none => c :: pyReplaceCore p0 ptail rep 0 rest
      else c :: pyReplaceCore p0 ptail rep 0 rest

/-- Python `s.replace(pat, rep)`: replace the non-overlapping occurrences of
`pat`, left to right.  An empty pattern matches before every character and
at the end of the string, as in CPython. -/
def pyReplace (s pat rep : String) : String :=
  match pat.data with
  | [] => ⟨rep.data ++ (s.data.map fun c => c :: rep.data).flatten⟩
  | p0 :: ptail => ⟨pyReplaceCore p0 ptail rep.data 0 s.data⟩

mutual

/-- Embeds `read_state.recursive_replace`: a dict maps each key to the
recursive transform of its value under the key transformed by `str.replace`,
rebuilt as a dict comprehension; any non-dict value (lists included) is
returned as it is. -/
def recursive_replace : Value → String → String → Value
  | .map entries, to_replace, replace_by =>
      .map (dictOfPairs (replaceEntries entries to_replace replace_by))
  | value, _, _ => value

/-- Entry list of the dict comprehension inside `recursive_replace`. -/
def replaceEntries : List (String × Value) → String → String → List (String × Value)
  | [], _, _ => []
  | (key, value) :: rest, to_replace, replace_by =>
      (pyReplace key to_replace replace_by, recursive_replace value to_replace replace_by)
        :: replaceEntries rest to_replace replace_by

end

/-- Python tuple unpacking `key, value = s` where `s` is a string: it
succeeds exactly when `s` has two characters, binding each to a
one-character string, and raises ValueError otherwise. -/
def pyUnpackPair (s : String) : Except ReadError (String × String) :=
  match s.data with
  | [c1, c2] => .ok (⟨[c1]⟩, ⟨[c2]⟩)
  | _ => .error .valueError

/-- Modelled from the spec: the `change.removes` attribute read by
`replace_and_copy_records`.  The spec's data model (§3) gives a change only
`updates` and `removals`, and §9 describes this very access as iterating
the removal keys, so the attribute denotes the removals list. -/
def DictionaryChange.removes (change : DictionaryChange) : List String :=
  change.removals

/-- The removals comprehension of `replace_and_copy_records`:
`[key.replace(to_replace, replace_by) for key, value in change.removes]`
tuple-unpacks each removal string as if it were a key/value pair. -/
def replaceRemovals (change : DictionaryChange) (to_replace replace_by : String) :
    Except ReadError (List String) :=
  change.removes.mapM fun s =>
    (pyUnpackPair s).map fun p => pyReplace p.1 to_replace replace_by

/-- Per-record mutation performed by `replace_and_copy_records`: rebuild
`change.updates` with substituted keys and recursively transformed values,
then rebuild `change.removals` from the removals comprehension. -/
def transformChange (change : DictionaryChange) (to_replace replace_by : String) :
    Except ReadError DictionaryChange := do
  let updates := dictOfPairs (replaceEntries change.updates to_replace replace_by)
  let removals ← replaceRemovals change to_replace replace_by
  pure ⟨updates, removals⟩

/-- Modelled from the spec: the frame loop of `nanover.recording.reading`
(not in src) behind `iter_state_recording`: each frame is a 16-byte
little-endian elapsed time, an 8-byte little-endian payload length and that
many payload bytes; end of stream at a frame boundary ends the recording,
end of stream inside a record is a truncation, and the frames before a
truncation are still yielded. -/
def parse_frames (bs : List Nat) : List (Nat × List Nat) × Option ReadError :=
  if hempty : bs = [] then ([], none)
  else
    if hlen : 24 + fromBytesLE ((bs.drop 16).take 8) ≤ bs.length then
      let n := fromBytesLE ((bs.drop 16).take 8)
      let elapsed := fromBytesLE (bs.take 16)
      let payload := (bs.drop 24).take n
      let result := parse_frames (bs.drop (24 + n))
      ((elapsed, payload) :: result.1, result.2)
    else ([], some .truncated)
termination_by bs.length
decreasing_by
  simp only [List.length_drop]
  omega

/-- Modelled from the spec: `nanover.recording.writing.write_entry` (not in
src) frames one record as 16-byte little-endian elapsed time, 8-byte
little-endian payload length, then the payload; the payload serializer
`enc` stands for the external codec composed with
`dictionary_change_to_state_update`. -/
def write_entry (enc : DictionaryChange → List Nat) (timestamp : Nat)
    (change : DictionaryChange) : Option (List Nat) := do
  let t ← pyToBytes 16 timestamp
  let s ← pyToBytes 8 (enc change).length
  pure (t ++ s ++ enc change)

/-- Record loop of `replace_and_copy_records` over the framed input: decode
each payload into a change with the external codec `dec`, transform it, and
append the re-framed record to the output; a decode or transform failure
stops the loop there, keeping the bytes already written (no rollback).  The
`tail_err` argument is the truncation error, if any, that ended the framing
of the input; it surfaces only after every complete frame was processed. -/
def copyRecordsLoop (dec : List Nat → Option DictionaryChange)
    (enc : DictionaryChange → List Nat) (to_replace replace_by : String) :
    List (Nat × List Nat) → Option ReadError → List Nat × Option ReadError
  | [], tail_err => ([], tail_err)
  | (timestamp, payload) :: rest, tail_err =>
      match dec payload with
      | none => ([], some .decodeFailure)
      | some change =>
          match transformChange change to_replace replace_by with
          | .error e => ([], some e)
          | .ok transformed =>
              match write_entry enc timestamp transformed with
              | none => ([], some .overflowError)
              | some record =>
                  let result := copyRecordsLoop dec enc to_replace replace_by rest tail_err
                  (record ++ result.1, result.2)

/-- Embeds `read_state.replace_and_copy_records` composed with the reader
that feeds it: validate the header of the input (`iter_state_recording`
propagates header errors and writes nothing), frame the remaining bytes,
then run the record loop; the result is the byte sequence written to the
output stream and the error, if any, that stopped the run. -/
def replace_and_copy_records (dec : List Nat → Option DictionaryChange)
    (enc : DictionaryChange → List Nat) (to_replace replace_by : String)
    (input : List Nat) : List Nat × Option ReadError :=
  match read_header input with
  | .error e => ([], some e)
  | .ok (_, rest) =>
      let framed := parse_frames rest
      copyRecordsLoop dec enc to_replace replace_by framed.1 framed.2

/-- Embeds `read_state.replace_narupa`: `replace_and_copy_records` with the
fixed pair of texts. -/
def replace_narupa (dec : List Nat → Option DictionaryChange)
    (enc : DictionaryChange → List Nat) (input : List Nat) :
    List Nat × Option ReadError :=
  replace_and_copy_records dec enc "narupa" "nanover" input

/-- Embeds `read_state.copy_header`: read the header from the input stream
and write its bytes to the output stream; the result carries the header,
the bytes written, and the rest of the input. -/
def copy_header (input : List Nat) :
    Except ReadError (Header × Option (List Nat) × List Nat) := do
  let parsed ← read_header input
  pure (parsed.1, parsed.1.as_bytes, parsed.2)

/-- Embeds `write_header` of the recorder: the magic number then format
version 2, each written as 8 little-endian bytes. -/
def write_header : Option (List Nat) := do
  let magic ← pyToBytes 8 MAGIC_NUMBER
  let version ← pyToBytes 8 2
  pure (magic ++ version)

/-- One record of the recorder's `record_stream` loop:
`elapsed.to_bytes(16, "little") + frame_size.to_bytes(8, "little")
+ frame_bytes`. -/
def streamRecord (elapsed : Nat) (frame_bytes : List Nat) : Option (List Nat) := do
  let elapsed_bytes ← pyToBytes 16 elapsed
  let size_bytes ← pyToBytes 8 frame_bytes.length
  pure (elapsed_bytes ++ size_bytes ++ frame_bytes)

/-- Frame loop of the recorder's `record_stream`: append one record per
message of the stream. -/
def record_stream_records : List (Nat × List Nat) → Option (List Nat)
  | [] => some []
  | m :: rest => do
      let record ← streamRecord m.1 m.2
      let records ← record_stream_records rest
      pure (record ++ records)

/-- Embeds the recorder's `record_stream`: write the header once, then one
record per message; each element of `stream` is the elapsed clock reading
sampled for that message paired with its serialized bytes
(`frame.SerializeToString()`). -/
def record_stream (stream : List (Nat × List Nat)) : Option (List Nat) := do
  let header ← write_header
  let records ← record_stream_records stream
  pure (header ++ records)

/-- Value of the last pair carrying the key, if any. -/
def lastPairValue : List (String × Value) → String → Option Value
  | [], _ => none
  | p :: rest, k =>
      match lastPairValue rest k with
      | some v => some v
      | none => if p.1 = k then some p.2 else none

/-- Value most recently assigned to the key across the updates of a change
sequence, if any. -/
def lastUpdateValue (changes : List (Nat × DictionaryChange)) (k : String) :
    Option Value :=
  lastPairValue (changes.map fun p => p.2.updates).flatten k

/-- Drop an optional value when it is the Null sentinel. -/
def stripNone : Option Value → Option Value
  | some v => if pyIsNone v then none else some v
  | none => none

/-- Aggregate state reached from `acc` after folding a whole change list
(the accumulator of `iter_full_states` without the yields). -/
def statesFold (acc : List (String × Value)) (changes : List (Nat × DictionaryChange)) :
    List (String × Value) :=
  changes.foldl (fun a p => stepState a p.2) acc

/-- Keys of the association list are pairwise distinct (true of every list
that stands for a Python dict). -/
def dictKeysNodup (d : List (String × Value)) : Prop :=
  (d.map Prod.fst).Nodup

theorem dictGet_eq_none_of_not_hasKey (d : List (String × Value)) (k : String)
    (h : hasKey d k = false) : dictGet d k = none := by
  induction d with
  | nil => rfl
  | cons p rest ih =>
      simp only [hasKey, List.any_cons, Bool.or_eq_false_iff, decide_eq_false_iff_not] at h
      simp [dictGet, h.1, ih (by simp [hasKey, h.2])]

theorem dictGet_map_overwrite_ne (d : List (String × Value)) (k k' : String) (v : Value)
    (hne : k' ≠ k) :
    dictGet (d.map fun p => if p.1 = k then (k, v) else p) k' = dictGet d k' := by
  induction d with
  | nil => rfl
  | cons p rest ih =>
      by_cases hp : p.1 = k
      · simp [dictGet, hp, Ne.symm hne, ih]
      · simp only [List.map_cons, if_neg hp]
        by_cases hp' : p.1 = k'
        · simp [dictGet, hp']
        · simp [dictGet, hp', ih]

theorem dictGet_map_overwrite_eq (d : List (String × Value)) (k : String) (v : Value)
    (h : hasKey d k = true) :
    dictGet (d.map fun p => if p.1 = k then (k, v) else p) k = some v := by
  induction d with
  | nil => simp [hasKey] at h
  | cons p rest ih =>
      by_cases hp : p.1 = k
      · simp [dictGet, hp]
      · simp only [hasKey, List.any_cons, Bool.or_eq_true_iff, decide_eq_true_eq] at h
        rcases h with h | h
        · exact absurd h hp
        · simp [dictGet, hp, ih h]

theorem dictGet_append (d1 d2 : List (String × Value)) (k : String) :
    dictGet (d1 ++ d2) k =
      match dictGet d1 k with
      | some v => some v
      | none => dictGet d2 k := by
  induction d1 with
  | nil => rfl
  | cons p rest ih =>
      by_cases hp : p.1 = k
      · simp [dictGet, hp]
      · simp [dictGet, hp, ih]

theorem dictGet_dictInsert (d : List (String × Value)) (k : String) (v : Value)
    (k' : String) :
    dictGet (dictInsert d k v) k' = if k' = k then some v else dictGet d k' := by
  unfold dictInsert
  by_cases h : hasKey d k
  · rw [if_pos h]
    by_cases hk : k' = k
    · subst hk; simp [dictGet_map_overwrite_eq d k' v h]
    · simp [hk, dictGet_map_overwrite_ne d k k' v hk]
  · rw [if_neg h]
    rw [dictGet_append]
    by_cases hk : k' = k
    · subst hk
      simp [dictGet_eq_none_of_not_hasKey d k' (by simpa using h), dictGet]
    · cases hget : dictGet d k' with
      | some w => simp [hget, hk]
      | none => simp [hget, dictGet, Ne.symm hk, hk]

theorem dictGet_dictUpdate (d u : List (String × Value)) (k : String) :
    dictGet (dictUpdate d u) k =
      match lastPairValue u k with
      | some v => some v
      | none => dictGet d k := by
  induction u generalizing d with
  | nil => rfl
  | cons p rest ih =>
      show dictGet (dictUpdate (dictInsert d p.1 p.2) rest) k = _
      rw [ih]
      cases hrest : lastPairValue rest k with
      | some v => simp [lastPairValue, hrest]
      | none =>
          rw [dictGet_dictInsert]
          by_cases hk : k = p.1
          · subst hk; simp [lastPairValue, hrest]
          · simp [lastPairValue, hrest, hk, Ne.symm hk]

theorem hasKey_eq_false_iff (d : List (String × Value)) (k : String) :
    hasKey d k = false ↔ k ∉ d.map Prod.fst := by
  simp only [hasKey, List.any_eq_false, decide_eq_true_eq, List.mem_map]
  constructor
  · rintro h ⟨p, hp, hpk⟩
    exact h p hp hpk
  · intro h p hp hpk
    exact h ⟨p, hp, hpk⟩

theorem dictKeysNodup_dictInsert (d : List (String × Value)) (k : String) (v : Value)
    (h : dictKeysNodup d) : dictKeysNodup (dictInsert d k v) := by
  unfold dictKeysNodup dictInsert
  by_cases hk : hasKey d k
  · rw [if_pos hk, List.map_map]
    have : d.map (Prod.fst ∘ fun p => if p.1 = k then (k, v) else p) = d.map Prod.fst := by
      apply List.map_congr_left
      intro p _
      by_cases hp : p.1 = k <;> simp [hp]
    rw [this]; exact h
  · rw [if_neg hk, List.map_append, List.nodup_append]
    refine ⟨h, List.nodup_singleton k, ?_⟩
    intro x hx hx'
    simp at hx'
    subst hx'
    exact absurd hx ((hasKey_eq_false_iff d x).mp (by simpa using hk))

theorem dictKeysNodup_dictUpdate (d u : List (String × Value))
    (h : dictKeysNodup d) : dictKeysNodup (dictUpdate d u) := by
  induction u generalizing d with
  | nil => exact h
  | cons p rest ih => exact ih _ (dictKeysNodup_dictInsert d p.1 p.2 h)

theorem dictKeysNodup_filter (d : List (String × Value)) (P : String × Value → Bool)
    (h : dictKeysNodup d) : dictKeysNodup (d.filter P) := by
  unfold dictKeysNodup at *
  exact ((List.filter_sublist d).map Prod.fst).nodup h

theorem dictGet_filter_some (d : List (String × Value)) (k : String)
    (h : dictKeysNodup d) :
    dictGet (d.filter fun p => !pyIsNone p.2) k = stripNone (dictGet d k) := by
  induction d with
  | nil => rfl
  | cons p rest ih =>
      have hrest : dictKeysNodup rest := by
        unfold dictKeysNodup at *
        exact (List.nodup_cons.mp h).2
      have hmem : p.1 ∉ rest.map Prod.fst := (List.nodup_cons.mp h).1
      by_cases hp : p.1 = k
      · subst hp
        cases hnull : pyIsNone p.2 with
        | true =>
            have : (p :: rest).filter (fun p => !pyIsNone p.2) =
                rest.filter fun p => !pyIsNone p.2 := by
              simp [List.filter_cons, hnull]
            rw [this, ih hrest, dictGet_eq_none_of_not_hasKey rest p.1
              ((hasKey_eq_false_iff rest p.1).mpr hmem)]
            simp [dictGet, stripNone, hnull]
        | false =>
            have : (p :: rest).filter (fun p => !pyIsNone p.2) =
                p :: rest.filter fun p => !pyIsNone p.2 := by
              simp [List.filter_cons, hnull]
            rw [this]
            simp [dictGet, stripNone, hnull]
      · have hstep : dictGet (p :: rest) k = dictGet rest k := by simp [dictGet, hp]
        rw [hstep, ← ih hrest]
        cases hnull : pyIsNone p.2 with
        | true => simp [List.filter_cons, hnull]
        | false => simp [List.filter_cons, hnull, dictGet, hp]

theorem stepState_values_not_none (acc : List (String × Value))
    (change : DictionaryChange) :
    ∀ p ∈ stepState acc change, pyIsNone p.2 = false := by
  intro p hp
  have := (List.mem_filter.mp hp).2
  simpa using this

theorem dictKeysNodup_stepState (acc : List (String × Value))
    (change : DictionaryChange) (h : dictKeysNodup acc) :
    dictKeysNodup (stepState acc change) :=
  dictKeysNodup_filter _ _ (dictKeysNodup_dictUpdate acc change.updates h)

theorem dictGet_stepState (acc : List (String × Value)) (change : DictionaryChange)
    (k : String) (h : dictKeysNodup acc) :
    dictGet (stepState acc change) k =
      stripNone (dictGet (dictUpdate acc change.updates) k) :=
  dictGet_filter_some _ k (dictKeysNodup_dictUpdate acc change.updates h)

theorem dictGet_eq_some_mem (d : List (String × Value)) (k : String) (v : Value)
    (h : dictGet d k = some v) : (k, v) ∈ d := by
  induction d with
  | nil => exact absurd h (by simp [dictGet])
  | cons p rest ih =>
      by_cases hp : p.1 = k
      · simp only [dictGet, if_pos hp] at h
        cases h
        rw [← hp]
        exact List.mem_cons_self _ _
      · simp only [dictGet, if_neg hp] at h
        exact List.mem_cons_of_mem p (ih h)

theorem lastPairValue_append (xs ys : List (String × Value)) (k : String) :
    lastPairValue (xs ++ ys) k =
      match lastPairValue ys k with
      | some v => some v
      | none => lastPairValue xs k := by
  induction xs with
  | nil =>
      simp only [List.nil_append]
      cases h : lastPairValue ys k <;> simp [lastPairValue, h]
  | cons p rest ih =>
      show (match lastPairValue (rest ++ ys) k with
        | some v => some v
        | none => if p.1 = k then some p.2 else none) = _
      rw [ih]
      cases hys : lastPairValue ys k <;> cases hrest : lastPairValue rest k <;>
        simp [lastPairValue, hys, hrest]

theorem lastUpdateValue_cons (c : Nat × DictionaryChange)
    (changes : List (Nat × DictionaryChange)) (k : String) :
    lastUpdateValue (c :: changes) k =
      match lastUpdateValue changes k with
      | some v => some v
      | none => lastPairValue c.2.updates k := by
  unfold lastUpdateValue
  rw [List.map_cons, List.flatten_cons, lastPairValue_append]

theorem dictGet_statesFold (changes : List (Nat × DictionaryChange))
    (acc : List (String × Value)) (k : String) (hnodup : dictKeysNodup acc)
    (hnull : ∀ p ∈ acc, pyIsNone p.2 = false) :
    dictGet (statesFold acc changes) k =
      match lastUpdateValue changes k with
      | some v => stripNone (some v)
      | none => dictGet acc k := by
  induction changes generalizing acc with
  | nil => rfl
  | cons c rest ih =>
      show dictGet (statesFold (stepState acc c.2) rest) k = _
      rw [ih (stepState acc c.2) (dictKeysNodup_stepState acc c.2 hnodup)
        (stepState_values_not_none acc c.2), lastUpdateValue_cons]
      cases hrest : lastUpdateValue rest k with
      | some v => rfl
      | none =>
          rw [dictGet_stepState acc c.2 k hnodup, dictGet_dictUpdate]
          cases hu : lastPairValue c.2.updates k with
          | some v => rfl
          | none =>
              cases hacc : dictGet acc k with
              | none => rfl
              | some v =>
                  have : pyIsNone v = false :=
                    hnull (k, v) (dictGet_eq_some_mem acc k v hacc)
                  simp [stripNone, this]

theorem length_iterFullStatesFrom (acc : List (String × Value))
    (changes : List (Nat × DictionaryChange)) :
    (iterFullStatesFrom acc changes).length = changes.length := by
  induction changes generalizing acc with
  | nil => rfl
  | cons c rest ih => simp [iterFullStatesFrom, ih]

theorem iterFullStatesFrom_cons (acc : List (String × Value)) (timestamp : Nat)
    (change : DictionaryChange) (rest : List (Nat × DictionaryChange)) :
    iterFullStatesFrom acc ((timestamp, change) :: rest) =
      (timestamp, stepState acc change)
        :: iterFullStatesFrom (stepState acc change) rest := rfl

theorem statesFold_cons (acc : List (String × Value)) (c : Nat × DictionaryChange)
    (rest : List (Nat × DictionaryChange)) :
    statesFold acc (c :: rest) = statesFold (stepState acc c.2) rest := rfl

theorem iterFullStatesFrom_getElem (acc : List (String × Value))
    (changes : List (Nat × DictionaryChange)) (i : Nat) (hi : i < changes.length) :
    (iterFullStatesFrom acc changes)[i]? =
      some ((changes.get ⟨i, hi⟩).1, statesFold acc (changes.take (i + 1))) := by
  induction changes generalizing acc i with
  | nil => exact absurd hi (by simp)
  | cons c rest ih =>
      cases c with
      | mk timestamp change =>
          cases i with
          | zero =>
              rw [iterFullStatesFrom_cons]
              simp [statesFold, List.take_succ_cons]
          | succ i =>
              have hi' : i < rest.length := by simpa using hi
              rw [iterFullStatesFrom_cons, List.getElem?_cons_succ,
                ih (stepState acc change) i hi', List.take_succ_cons,
                statesFold_cons]
              simp

mutual

/-- Modelled from the spec: the recursive key rewrite of §4.5 and §9 —
substring replacement applied to every Mapping key at every nesting depth,
recursing into both Mapping and Array children, scalars untouched; the
rebuilt Mapping collapses key collisions the way the code's dict
comprehension does. -/
def replaceKeysSpec : Value → String → String → Value
  | .map entries, to_replace, replace_by =>
      .map (dictOfPairs (replaceKeysSpecEntries entries to_replace replace_by))
  | .arr elems, to_replace, replace_by =>
      .arr (replaceKeysSpecList elems to_replace replace_by)
  | value, _, _ => value

/-- Entry list of a rewritten Mapping under `replaceKeysSpec`. -/
def replaceKeysSpecEntries :
    List (String × Value) → String → String → List (String × Value)
  | [], _, _ => []
  | (key, value) :: rest, to_replace, replace_by =>
      (pyReplace key to_replace replace_by, replaceKeysSpec value to_replace replace_by)
        :: replaceKeysSpecEntries rest to_replace replace_by

/-- Element list of a rewritten Array under `replaceKeysSpec`. -/
def replaceKeysSpecList : List Value → String → String → List Value
  | [], _, _ => []
  | value :: rest, to_replace, replace_by =>
      replaceKeysSpec value to_replace replace_by
        :: replaceKeysSpecList rest to_replace replace_by

end

mutual

/-- No Array occurs anywhere inside the value. -/
def noArr : Value → Bool
  | .map entries => noArrEntries entries
  | .arr _ => false
  | _ => true

/-- No Array occurs anywhere inside the values of the entry list. -/
def noArrEntries : List (String × Value) → Bool
  | [] => true
  | (_, value) :: rest => noArr value && noArrEntries rest

end

mutual

theorem recursive_replace_eq_spec_of_noArr (to_replace replace_by : String) :
    (v : Value) → noArr v = true →
      recursive_replace v to_replace replace_by = replaceKeysSpec v to_replace replace_by
  | .null, _ => rfl
  | .bool _, _ => rfl
  | .num _, _ => rfl
  | .str _, _ => rfl
  | .arr _, h => by simp [noArr] at h
  | .map entries, h => by
      show Value.map (dictOfPairs (replaceEntries entries to_replace replace_by)) = _
      rw [replaceEntries_eq_spec_of_noArr to_replace replace_by entries
        (by simpa [noArr] using h)]
      rfl

theorem replaceEntries_eq_spec_of_noArr (to_replace replace_by : String) :
    (entries : List (String × Value)) → noArrEntries entries = true →
      replaceEntries entries to_replace replace_by =
        replaceKeysSpecEntries entries to_replace replace_by
  | [], _ => rfl
  | (key, value) :: rest, h => by
      have hv : noArr value = true := by
        have := h
        simp [noArrEntries, Bool.and_eq_true] at this
        exact this.1
      have hr : noArrEntries rest = true := by
        have := h
        simp [noArrEntries, Bool.and_eq_true] at this
        exact this.2
      show (pyReplace key to_replace replace_by,
          recursive_replace value to_replace replace_by)
        :: replaceEntries rest to_replace replace_by = _
      rw [recursive_replace_eq_spec_of_noArr to_replace replace_by value hv,
        replaceEntries_eq_spec_of_noArr to_replace replace_by rest hr]
      rfl

end

/-- Change sequence of the spec's aggregation example:
`[{a:1}], [{b:2}], [{a:null}]`. -/
def exampleChanges : List (Nat × DictionaryChange) :=
  [(1, ⟨[("a", .num 1)], []⟩), (2, ⟨[("b", .num 2)], []⟩),
    (3, ⟨[("a", .null)], []⟩)]

theorem stepState_updates_congr (acc : List (String × Value))
    (c1 c2 : DictionaryChange) (h : c1.updates = c2.updates) :
    stepState acc c1 = stepState acc c2 := by
  simp [stepState, h]

theorem iterFullStatesFrom_updates_congr
    (changes1 : List (Nat × DictionaryChange)) :
    ∀ (changes2 : List (Nat × DictionaryChange)) (acc : List (String × Value)),
      changes1.map (fun p => (p.1, p.2.updates))
          = changes2.map (fun p => (p.1, p.2.updates)) →
      iterFullStatesFrom acc changes1 = iterFullStatesFrom acc changes2 := by
  induction changes1 with
  | nil =>
      intro changes2 acc h
      cases changes2 with
      | nil => rfl
      | cons q r2 => simp at h
  | cons p r1 ih =>
      intro changes2 acc h
      cases changes2 with
      | nil => simp at h
      | cons q r2 =>
          cases p with
          | mk t1 c1 =>
              cases q with
              | mk t2 c2 =>
                  simp only [List.map_cons, List.cons.injEq, Prod.mk.injEq] at h
                  obtain ⟨⟨ht, hu⟩, htail⟩ := h
                  subst ht
                  rw [iterFullStatesFrom_cons, iterFullStatesFrom_cons]
                  have hstep : stepState acc c1 = stepState acc c2 :=
                    stepState_updates_congr acc c1 c2 hu
                  rw [hstep, ih r2 (stepState acc c2) htail]

theorem iterFullStatesFrom_values_not_none
    (changes : List (Nat × DictionaryChange)) :
    ∀ (acc : List (String × Value)) (p : Nat × List (String × Value)),
      p ∈ iterFullStatesFrom acc changes →
      ∀ q ∈ p.2, pyIsNone q.2 = false := by
  induction changes with
  | nil => intro acc p hp; simp [iterFullStatesFrom] at hp
  | cons c rest ih =>
      intro acc p hp
      cases c with
      | mk timestamp change =>
          rw [iterFullStatesFrom_cons] at hp
          rcases List.mem_cons.mp hp with hhead | htail
          · subst hhead
            exact stepState_values_not_none acc change
          · exact ih (stepState acc change) p htail

/-- C1: the aggregation fold overwrites the accumulator with every key of
`change.updates`, then removes every key whose current value is Null, and
yields one `(timestamp, snapshot)` pair per change in which a key is
present exactly when its most recently applied value is non-Null, and then
holds that value; in particular the changes `[{a:1}], [{b:2}], [{a:null}]`
yield exactly the snapshots `[{a:1}]`, `[{a:1,b:2}]`, `[{b:2}]`. -/
theorem iter_full_states_claim (changes : List (Nat × DictionaryChange))
    (i timestamp : Nat) (change : DictionaryChange)
    (hi : changes[i]? = some (timestamp, change)) :
    (iter_full_states changes).length = changes.length
    ∧ (∃ snapshot,
        (iter_full_states changes)[i]? = some (timestamp, snapshot)
        ∧ ∀ k, dictGet snapshot k = stripNone (lastUpdateValue (changes.take (i + 1)) k))
    ∧ iter_full_states exampleChanges
      = [(1, [("a", .num 1)]), (2, [("a", .num 1), ("b", .num 2)]),
          (3, [("b", .num 2)])] := by
  have hlt : i < changes.length := by
    by_contra hcon
    push_neg at hcon
    rw [List.getElem?_eq_none hcon] at hi
    exact absurd hi (by simp)
  have hget : changes.get ⟨i, hlt⟩ = (timestamp, change) := by
    have h2 : changes[i]? = some (changes.get ⟨i, hlt⟩) := by
      rw [List.getElem?_eq_getElem hlt]
      simp
    rw [h2] at hi
    exact Option.some.inj hi
  refine ⟨length_iterFullStatesFrom [] changes,
    ⟨statesFold [] (changes.take (i + 1)), ?_, ?_⟩, rfl⟩
  · rw [iter_full_states, iterFullStatesFrom_getElem [] changes i hlt, hget]
  · intro k
    rw [dictGet_statesFold (changes.take (i + 1)) [] k
      (by simp [dictKeysNodup]) (by intro p hp; simp at hp)]
    cases lastUpdateValue (changes.take (i + 1)) k <;> rfl

theorem iter_full_states_claim_witness :
    exampleChanges[2]? = some (3, ⟨[("a", Value.null)], []⟩)
    ∧ ((iter_full_states exampleChanges).length = exampleChanges.length
      ∧ (∃ snapshot,
          (iter_full_states exampleChanges)[2]? = some (3, snapshot)
          ∧ ∀ k, dictGet snapshot k
              = stripNone (lastUpdateValue (exampleChanges.take 3) k))
      ∧ iter_full_states exampleChanges
        = [(1, [("a", .num 1)]), (2, [("a", .num 1), ("b", .num 2)]),
            (3, [("b", .num 2)])]) :=
  ⟨rfl, iter_full_states_claim exampleChanges 2 3 ⟨[("a", .null)], []⟩ rfl⟩

/-- C8: the output of the aggregation fold depends only on the ordered
timestamps and updates mappings — two change sequences that agree on those
but differ in their removals produce identical output — and re-running the
fold on the same input reproduces identical output. -/
theorem iter_full_states_ignores_removals
    (changes1 changes2 : List (Nat × DictionaryChange))
    (h : changes1.map (fun p => (p.1, p.2.updates))
        = changes2.map fun p => (p.1, p.2.updates)) :
    iter_full_states changes1 = iter_full_states changes2
    ∧ iter_full_states changes1 = iter_full_states changes1 :=
  ⟨iterFullStatesFrom_updates_congr changes1 changes2 [] h, rfl⟩

theorem iter_full_states_ignores_removals_witness :
    ([(1, (⟨[("a", .num 1)], ["x"]⟩ : DictionaryChange))].map
        (fun p => (p.1, p.2.updates))
      = ([(1, (⟨[("a", .num 1)], []⟩ : DictionaryChange))].map
        fun p => (p.1, p.2.updates)))
    ∧ (iter_full_states [(1, ⟨[("a", .num 1)], ["x"]⟩)]
        = iter_full_states [(1, ⟨[("a", .num 1)], []⟩)]
      ∧ iter_full_states [(1, ⟨[("a", .num 1)], ["x"]⟩)]
        = iter_full_states [(1, ⟨[("a", .num 1)], ["x"]⟩)]) :=
  ⟨rfl, iter_full_states_ignores_removals
    [(1, ⟨[("a", .num 1)], ["x"]⟩)] [(1, ⟨[("a", .num 1)], []⟩)] rfl⟩

/-- C10: invariant of the aggregation fold — every snapshot it yields maps
each of its keys to a non-None value; a Null value never appears in a
yielded snapshot. -/
theorem iter_full_states_no_none (changes : List (Nat × DictionaryChange))
    (p : Nat × List (String × Value)) (hp : p ∈ iter_full_states changes)
    (q : String × Value) (hq : q ∈ p.2) : pyIsNone q.2 = false :=
  iterFullStatesFrom_values_not_none changes [] p hp q hq

theorem iter_full_states_no_none_witness :
    (1, [("a", Value.num 1)]) ∈ iter_full_states exampleChanges
    ∧ ("a", Value.num 1) ∈ [("a", Value.num 1)]
    ∧ pyIsNone (Value.num 1) = false := by
  have hfull : iter_full_states exampleChanges
      = [(1, [("a", Value.num 1)]), (2, [("a", Value.num 1), ("b", Value.num 2)]),
          (3, [("b", Value.num 2)])] := rfl
  have hmem : (1, [("a", Value.num 1)]) ∈ iter_full_states exampleChanges := by
    rw [hfull]
    exact List.mem_cons_self _ _
  exact ⟨hmem, List.mem_cons_self _ _,
    iter_full_states_no_none exampleChanges (1, [("a", Value.num 1)]) hmem
      ("a", Value.num 1) (List.mem_cons_self _ _)⟩

/-- C2 counterexample: on the updates value `{"k": [{"narupa": 1}]}` the
transform returns its input unchanged — the Mapping key `"narupa"` nested
inside the Array element is not substituted, although the claim requires
the rewrite to reach it (the spec recursion `replaceKeysSpec` produces
`{"k": [{"nanover": 1}]}` there). -/
theorem recursive_replace_claim_counterexample :
    recursive_replace (.map [("k", .arr [.map [("narupa", .num 1)]])])
        "narupa" "nanover"
      = .map [("k", .arr [.map [("narupa", .num 1)]])]
    ∧ replaceKeysSpec (.map [("k", .arr [.map [("narupa", .num 1)]])])
        "narupa" "nanover"
      = .map [("k", .arr [.map [("nanover", .num 1)]])]
    ∧ recursive_replace (.map [("k", .arr [.map [("narupa", .num 1)]])])
        "narupa" "nanover"
      ≠ replaceKeysSpec (.map [("k", .arr [.map [("narupa", .num 1)]])])
        "narupa" "nanover" := by
  refine ⟨rfl, rfl, ?_⟩
  intro hcontra
  have hcontra2 : Value.map [("k", Value.arr [Value.map [("narupa", Value.num 1)]])]
      = Value.map [("k", Value.arr [Value.map [("nanover", Value.num 1)]])] := hcontra
  simp at hcontra2

theorem hasKey_iff_mem (d : List (String × Value)) (k : String) :
    hasKey d k = true ↔ k ∈ d.map Prod.fst := by
  constructor
  · intro h
    by_contra hm
    rw [(hasKey_eq_false_iff d k).mpr hm] at h
    exact absurd h (by simp)
  · intro hm
    cases hh : hasKey d k with
    | true => rfl
    | false => exact absurd hm ((hasKey_eq_false_iff d k).mp hh)

theorem mem_keys_dictInsert (d : List (String × Value)) (k : String) (v : Value)
    (k' : String) :
    k' ∈ (dictInsert d k v).map Prod.fst ↔ (k' ∈ d.map Prod.fst ∨ k' = k) := by
  unfold dictInsert
  by_cases h : hasKey d k
  · rw [if_pos h]
    have hkeys : (d.map fun p => if p.1 = k then (k, v) else p).map Prod.fst
        = d.map Prod.fst := by
      rw [List.map_map]
      apply List.map_congr_left
      intro p _
      by_cases hp : p.1 = k <;> simp [hp]
    rw [hkeys]
    constructor
    · exact Or.inl
    · rintro (hm | hm)
      · exact hm
      · subst hm
        exact (hasKey_iff_mem d k').mp h
  · rw [if_neg h]
    simp [List.map_append]

theorem mem_keys_foldl_dictInsert (pairs : List (String × Value)) :
    ∀ (acc : List (String × Value)) (k : String),
      (k ∈ (pairs.foldl (fun a p => dictInsert a p.1 p.2) acc).map Prod.fst)
        ↔ (k ∈ acc.map Prod.fst ∨ k ∈ pairs.map Prod.fst) := by
  induction pairs with
  | nil => simp
  | cons p rest ih =>
      intro acc k
      rw [List.foldl_cons, ih, mem_keys_dictInsert]
      simp [or_assoc]

theorem hasKey_dictOfPairs (pairs : List (String × Value)) (k : String) :
    hasKey (dictOfPairs pairs) k = true ↔ k ∈ pairs.map Prod.fst := by
  rw [hasKey_iff_mem, dictOfPairs, mem_keys_foldl_dictInsert]
  simp

theorem replaceEntries_eq_map (entries : List (String × Value))
    (to_replace replace_by : String) :
    replaceEntries entries to_replace replace_by
      = entries.map fun p =>
          (pyReplace p.1 to_replace replace_by,
            recursive_replace p.2 to_replace replace_by) := by
  induction entries with
  | nil => rfl
  | cons p rest ih =>
      cases p with
      | mk key value => simp [replaceEntries, ih]

/-- C2 (amended): for every pair of texts and every value, the rewrite
transform returns any non-Mapping value — scalars and Arrays, including
every Mapping nested inside an Array element — entirely unchanged, and
rewrites a Mapping entry-wise: every key receives the substring replacement
and every value the recursive transform, rebuilt as a dict (later duplicate
keys overwrite), so the rebuilt Mapping carries a key exactly when it is
the replace-image of one of the original keys; this holds at every nesting
depth reachable through Mapping values, since the Mapping conjunct applies
hereditarily — concretely, `{"narupa": [0, 1]}` becomes
`{"nanover": [0, 1]}` with the Array untouched; on values containing no
Array the transform coincides with the spec recursion `replaceKeysSpec`. -/
theorem recursive_replace_amended (to_replace replace_by : String) (v : Value)
    (entries : List (String × Value)) (elems : List Value) (s : String)
    (b : Bool) (n : Int) :
    recursive_replace (.arr elems) to_replace replace_by = .arr elems
    ∧ recursive_replace .null to_replace replace_by = .null
    ∧ recursive_replace (.bool b) to_replace replace_by = .bool b
    ∧ recursive_replace (.num n) to_replace replace_by = .num n
    ∧ recursive_replace (.str s) to_replace replace_by = .str s
    ∧ recursive_replace (.map entries) to_replace replace_by
        = .map (dictOfPairs (entries.map fun p =>
            (pyReplace p.1 to_replace replace_by,
              recursive_replace p.2 to_replace replace_by)))
    ∧ (∀ k, hasKey (dictOfPairs (entries.map fun p =>
            (pyReplace p.1 to_replace replace_by,
              recursive_replace p.2 to_replace replace_by))) k = true
          ↔ k ∈ entries.map fun p => pyReplace p.1 to_replace replace_by)
    ∧ recursive_replace (.map [("narupa", .arr [.num 0, .num 1])])
        "narupa" "nanover"
      = .map [("nanover", .arr [.num 0, .num 1])]
    ∧ (noArr v = true →
        recursive_replace v to_replace replace_by
          = replaceKeysSpec v to_replace replace_by) := by
  refine ⟨rfl, rfl, rfl, rfl, rfl, ?_, ?_, rfl,
    recursive_replace_eq_spec_of_noArr to_replace replace_by v⟩
  · show Value.map (dictOfPairs (replaceEntries entries to_replace replace_by)) = _
    rw [replaceEntries_eq_map]
  · intro k
    rw [hasKey_dictOfPairs, List.map_map]
    simp [Function.comp]

theorem recursive_replace_amended_witness :
    noArr (Value.map [("narupa.x", Value.num 1)]) = true
    ∧ (recursive_replace (.arr [.num 0, .num 1]) "narupa" "nanover"
        = .arr [.num 0, .num 1]
      ∧ recursive_replace .null "narupa" "nanover" = .null
      ∧ recursive_replace (.bool true) "narupa" "nanover" = .bool true
      ∧ recursive_replace (.num 7) "narupa" "nanover" = .num 7
      ∧ recursive_replace (.str "narupa") "narupa" "nanover" = .str "narupa"
      ∧ recursive_replace (.map [("narupa", .arr [.num 0, .num 1])])
          "narupa" "nanover"
        = .map (dictOfPairs ([(("narupa" : String), Value.arr [.num 0, .num 1])].map
            fun p => (pyReplace p.1 "narupa" "nanover",
              recursive_replace p.2 "narupa" "nanover")))
      ∧ (∀ k, hasKey (dictOfPairs ([(("narupa" : String), Value.arr [.num 0, .num 1])].map
            fun p => (pyReplace p.1 "narupa" "nanover",
              recursive_replace p.2 "narupa" "nanover"))) k = true
          ↔ k ∈ [(("narupa" : String), Value.arr [.num 0, .num 1])].map
              fun p => pyReplace p.1 "narupa" "nanover")
      ∧ recursive_replace (.map [("narupa", .arr [.num 0, .num 1])])
          "narupa" "nanover"
        = .map [("nanover", .arr [.num 0, .num 1])]
      ∧ (noArr (Value.map [("narupa.x", Value.num 1)]) = true →
          recursive_replace (Value.map [("narupa.x", Value.num 1)])
              "narupa" "nanover"
            = replaceKeysSpec (Value.map [("narupa.x", Value.num 1)])
              "narupa" "nanover")) :=
  ⟨rfl, recursive_replace_amended "narupa" "nanover"
    (Value.map [("narupa.x", Value.num 1)])
    [("narupa", .arr [.num 0, .num 1])] [.num 0, .num 1] "narupa" true 7⟩

/-- C3 (code evaluated at the failing input): the removals comprehension of
`replace_and_copy_records` tuple-unpacks each removal entry as if it were a
key/value pair, so the change that removes the key `"narupa.x"` makes the
transform raise ValueError instead of producing the substituted entry
`"nanover.x"` that the claim requires. -/
theorem replace_and_copy_records_removals_bug :
    transformChange ⟨[], ["narupa.x"]⟩ "narupa" "nanover" = .error .valueError
    ∧ pyReplace "narupa.x" "narupa" "nanover" = "nanover.x" :=
  ⟨rfl, by decide⟩

/-- Payload decoder stub standing for the external payload codec: every
payload decodes to the empty change. -/
def constDecoder : List Nat → Option DictionaryChange := fun _ => some ⟨[], []⟩

/-- Payload encoder stub standing for the external payload codec: every
change serializes to zero bytes. -/
def constEncoder : DictionaryChange → List Nat := fun _ => []

/-- C4 (code evaluated at the failing input): on the recording that is a
valid 16-byte header followed by zero frames, `replace_narupa` writes zero
bytes to the output stream — `copy_header` exists in the source but is
never called, so the input's header bytes are not copied to the output
before the frames. -/
theorem replace_narupa_header_bug :
    read_header (toBytesLE 8 MAGIC_NUMBER ++ toBytesLE 8 2)
      = .ok (⟨MAGIC_NUMBER, 2⟩, [])
    ∧ (toBytesLE 8 MAGIC_NUMBER ++ toBytesLE 8 2).length = 16
    ∧ replace_narupa constDecoder constEncoder
        (toBytesLE 8 MAGIC_NUMBER ++ toBytesLE 8 2)
      = ([], none) := by
  have hm : MAGIC_NUMBER < 2 ^ (8 * 8) := by norm_num [MAGIC_NUMBER]
  have h1 : read_u64 (toBytesLE 8 MAGIC_NUMBER ++ toBytesLE 8 2)
      = some (MAGIC_NUMBER, toBytesLE 8 2) := read_u64_toBytesLE _ _ hm
  have h2 : read_u64 (toBytesLE 8 2) = some (2, []) := by
    simpa using read_u64_toBytesLE 2 [] (by norm_num)
  have hread : read_header (toBytesLE 8 MAGIC_NUMBER ++ toBytesLE 8 2)
      = .ok (⟨MAGIC_NUMBER, 2⟩, []) := by
    simp [read_header, h1, h2, supported_format_versions]
  have hframes : parse_frames [] = ([], none) := by
    simp [parse_frames]
  refine ⟨hread, by simp [length_toBytesLE], ?_⟩
  rw [replace_narupa, replace_and_copy_records, hread]
  simp [hframes, copyRecordsLoop]

/-- C5: encoding a header whose magic number is `MAGIC_NUMBER` and whose
format version is in the supported set `{2}`, then decoding the resulting
16 bytes with `read_header`, succeeds and returns an equal header. -/
theorem header_roundtrip (h : Header) (hm : h.magic_number = MAGIC_NUMBER)
    (hv : h.format_version = 2) :
    ∃ bs, h.as_bytes = some bs ∧ bs.length = 16 ∧ read_header bs = .ok (h, []) := by
  cases h with
  | mk magic_number format_version =>
      have hm' : magic_number = MAGIC_NUMBER := hm
      have hv' : format_version = 2 := hv
      subst hm'
      subst hv'
      refine ⟨toBytesLE 8 MAGIC_NUMBER ++ toBytesLE 8 2, ?_,
        by simp [length_toBytesLE], ?_⟩
      · simp [Header.as_bytes, pyToBytes, MAGIC_NUMBER]
      · have hm64 : MAGIC_NUMBER < 2 ^ (8 * 8) := by norm_num [MAGIC_NUMBER]
        have h1 : read_u64 (toBytesLE 8 MAGIC_NUMBER ++ toBytesLE 8 2)
            = some (MAGIC_NUMBER, toBytesLE 8 2) := read_u64_toBytesLE _ _ hm64
        have h2 : read_u64 (toBytesLE 8 2) = some (2, []) := by
          simpa using read_u64_toBytesLE 2 [] (by norm_num)
        simp [read_header, h1, h2, supported_format_versions]

theorem header_roundtrip_witness :
    (Header.mk MAGIC_NUMBER 2).magic_number = MAGIC_NUMBER
    ∧ (Header.mk MAGIC_NUMBER 2).format_version = 2
    ∧ ∃ bs, (Header.mk MAGIC_NUMBER 2).as_bytes = some bs ∧ bs.length = 16
        ∧ read_header bs = .ok (Header.mk MAGIC_NUMBER 2, []) :=
  ⟨rfl, rfl, header_roundtrip ⟨MAGIC_NUMBER, 2⟩ rfl rfl⟩

/-- C6: on any 16-byte input, `read_header` fails with InvalidMagicNumber
exactly when the first 8 bytes, read as a little-endian u64, differ from
`MAGIC_NUMBER`; when the magic number matches it fails with
UnsupportedFormatVersion of the version field and the supported set `{2}`
exactly when that field is not 2 — in particular version 99 fails with
UnsupportedFormatVersion(99, {2}) — and it succeeds exactly when the magic
number matches and the version is 2. -/
theorem read_header_cases (bs : List Nat) (h : bs.length = 16) :
    (read_header bs = .error .invalidMagicNumber
      ↔ fromBytesLE (bs.take 8) ≠ MAGIC_NUMBER)
    ∧ (fromBytesLE (bs.take 8) = MAGIC_NUMBER →
        (read_header bs = .error (.unsupportedFormatVersion
            (fromBytesLE ((bs.drop 8).take 8)) supported_format_versions)
          ↔ fromBytesLE ((bs.drop 8).take 8) ≠ 2))
    ∧ ((∃ hd rest, read_header bs = .ok (hd, rest))
        ↔ (fromBytesLE (bs.take 8) = MAGIC_NUMBER
          ∧ fromBytesLE ((bs.drop 8).take 8) = 2))
    ∧ read_header (toBytesLE 8 MAGIC_NUMBER ++ toBytesLE 8 99)
      = .error (.unsupportedFormatVersion 99 supported_format_versions) := by
  have hb1 : read_u64 bs = some (fromBytesLE (bs.take 8), bs.drop 8) := by
    rw [read_u64, if_pos (by omega)]
  have hb2 : read_u64 (bs.drop 8)
      = some (fromBytesLE ((bs.drop 8).take 8), (bs.drop 8).drop 8) := by
    rw [read_u64, if_pos (by simp [h])]
  have h99 : read_header (toBytesLE 8 MAGIC_NUMBER ++ toBytesLE 8 99)
      = .error (.unsupportedFormatVersion 99 supported_format_versions) := by
    have hm : MAGIC_NUMBER < 2 ^ (8 * 8) := by norm_num [MAGIC_NUMBER]
    have g1 : read_u64 (toBytesLE 8 MAGIC_NUMBER ++ toBytesLE 8 99)
        = some (MAGIC_NUMBER, toBytesLE 8 99) := read_u64_toBytesLE _ _ hm
    have g2 : read_u64 (toBytesLE 8 99) = some (99, []) := by
      simpa using read_u64_toBytesLE 99 [] (by norm_num)
    simp [read_header, g1, g2, supported_format_versions]
  refine ⟨?_, ?_, ?_, h99⟩
  · by_cases hmag : fromBytesLE (bs.take 8) = MAGIC_NUMBER <;>
      by_cases hver : fromBytesLE ((bs.drop 8).take 8) = 2 <;>
      simp [read_header, hb1, hb2, hmag, hver, supported_format_versions]
  · intro hmag
    by_cases hver : fromBytesLE ((bs.drop 8).take 8) = 2 <;>
      simp [read_header, hb1, hb2, hmag, hver, supported_format_versions]
  · by_cases hmag : fromBytesLE (bs.take 8) = MAGIC_NUMBER <;>
      by_cases hver : fromBytesLE ((bs.drop 8).take 8) = 2 <;>
      simp [read_header, hb1, hb2, hmag, hver, supported_format_versions]

theorem read_header_cases_witness :
    (toBytesLE 8 MAGIC_NUMBER ++ toBytesLE 8 2).length = 16
    ∧ ((read_header (toBytesLE 8 MAGIC_NUMBER ++ toBytesLE 8 2)
          = .error .invalidMagicNumber
        ↔ fromBytesLE ((toBytesLE 8 MAGIC_NUMBER ++ toBytesLE 8 2).take 8)
          ≠ MAGIC_NUMBER)
      ∧ (fromBytesLE ((toBytesLE 8 MAGIC_NUMBER ++ toBytesLE 8 2).take 8)
            = MAGIC_NUMBER →
          (read_header (toBytesLE 8 MAGIC_NUMBER ++ toBytesLE 8 2)
              = .error (.unsupportedFormatVersion
                (fromBytesLE (((toBytesLE 8 MAGIC_NUMBER ++ toBytesLE 8 2).drop 8).take 8))
                supported_format_versions)
            ↔ fromBytesLE (((toBytesLE 8 MAGIC_NUMBER ++ toBytesLE 8 2).drop 8).take 8)
              ≠ 2))
      ∧ ((∃ hd rest, read_header (toBytesLE 8 MAGIC_NUMBER ++ toBytesLE 8 2)
            = .ok (hd, rest))
          ↔ (fromBytesLE ((toBytesLE 8 MAGIC_NUMBER ++ toBytesLE 8 2).take 8)
              = MAGIC_NUMBER
            ∧ fromBytesLE (((toBytesLE 8 MAGIC_NUMBER ++ toBytesLE 8 2).drop 8).take 8)
              = 2))
      ∧ read_header (toBytesLE 8 MAGIC_NUMBER ++ toBytesLE 8 99)
        = .error (.unsupportedFormatVersion 99 supported_format_versions)) :=
  ⟨by simp [length_toBytesLE],
    read_header_cases (toBytesLE 8 MAGIC_NUMBER ++ toBytesLE 8 2)
      (by simp [length_toBytesLE])⟩

/-- C7: the frame record written by the recorder's capture loop is exactly
the 16-byte little-endian elapsed time, the 8-byte little-endian payload
length, then the payload — `24 + len(payload)` bytes in all.  (The payload
length bound is the Python truism that `len` of a bytes object fits in an
unsigned 64-bit integer.) -/
theorem record_stream_record_format (elapsed : Nat) (payload : List Nat)
    (ht : elapsed < 2 ^ 128) (hp : payload.length < 2 ^ 64) :
    ∃ record, streamRecord elapsed payload = some record
      ∧ record = toBytesLE 16 elapsed ++ toBytesLE 8 payload.length ++ payload
      ∧ record.length = 24 + payload.length := by
  have ht' : elapsed < 340282366920938463463374607431768211456 := by
    have := ht; norm_num at this; exact this
  have hp' : payload.length < 18446744073709551616 := by
    have := hp; norm_num at this; exact this
  refine ⟨toBytesLE 16 elapsed ++ toBytesLE 8 payload.length ++ payload,
    ?_, rfl, ?_⟩
  · simp [streamRecord, pyToBytes, ht', hp']
  · simp [length_toBytesLE]
    omega

theorem record_stream_record_format_witness :
    (5 : Nat) < 2 ^ 128 ∧ ([(7 : Nat)] : List Nat).length < 2 ^ 64
    ∧ ∃ record, streamRecord 5 [7] = some record
      ∧ record = toBytesLE 16 5 ++ toBytesLE 8 ([(7 : Nat)] : List Nat).length ++ [7]
      ∧ record.length = 24 + ([(7 : Nat)] : List Nat).length :=
  ⟨by norm_num, by norm_num,
    record_stream_record_format 5 [7] (by norm_num) (by norm_num)⟩

theorem streamRecord_isSome (elapsed : Nat) (payload : List Nat)
    (ht : elapsed < 2 ^ 128) (hp : payload.length < 2 ^ 64) :
    streamRecord elapsed payload
      = some (toBytesLE 16 elapsed ++ toBytesLE 8 payload.length ++ payload) := by
  have ht' : elapsed < 340282366920938463463374607431768211456 := by
    have := ht; norm_num at this; exact this
  have hp' : payload.length < 18446744073709551616 := by
    have := hp; norm_num at this; exact this
  simp [streamRecord, pyToBytes, ht', hp']

theorem record_stream_records_isSome (stream : List (Nat × List Nat))
    (h : ∀ m ∈ stream, m.1 < 2 ^ 128 ∧ m.2.length < 2 ^ 64) :
    ∃ records, record_stream_records stream = some records := by
  induction stream with
  | nil => exact ⟨[], rfl⟩
  | cons m rest ih =>
      obtain ⟨hm, hlen⟩ := h m (List.mem_cons_self m rest)
      have hrec := streamRecord_isSome m.1 m.2 hm hlen
      obtain ⟨records, hrecs⟩ := ih fun x hx => h x (List.mem_cons_of_mem m hx)
      exact ⟨toBytesLE 16 m.1 ++ toBytesLE 8 m.2.length ++ m.2 ++ records,
        by simp [record_stream_records, hrec, hrecs]⟩

/-- C9: the recorder's capture loop writes the 16-byte header to its sink
exactly once, before the first frame bytes, and that header — the magic
number then format version 2, both little-endian u64 — decodes successfully
with the reader's `read_header`. -/
theorem record_stream_header_first (stream : List (Nat × List Nat))
    (h : ∀ m ∈ stream, m.1 < 2 ^ 128 ∧ m.2.length < 2 ^ 64) :
    ∃ header body, write_header = some header
      ∧ record_stream stream = some (header ++ body)
      ∧ header.length = 16
      ∧ read_header header = .ok (⟨MAGIC_NUMBER, 2⟩, [])
      ∧ ∃ records, record_stream_records stream = some records
          ∧ body = records := by
  have hwh : write_header = some (toBytesLE 8 MAGIC_NUMBER ++ toBytesLE 8 2) := by
    simp [write_header, pyToBytes, MAGIC_NUMBER]
  obtain ⟨records, hrecs⟩ := record_stream_records_isSome stream h
  have hm64 : MAGIC_NUMBER < 2 ^ (8 * 8) := by norm_num [MAGIC_NUMBER]
  have h1 : read_u64 (toBytesLE 8 MAGIC_NUMBER ++ toBytesLE 8 2)
      = some (MAGIC_NUMBER, toBytesLE 8 2) := read_u64_toBytesLE _ _ hm64
  have h2 : read_u64 (toBytesLE 8 2) = some (2, []) := by
    simpa using read_u64_toBytesLE 2 [] (by norm_num)
  refine ⟨toBytesLE 8 MAGIC_NUMBER ++ toBytesLE 8 2, records, hwh, ?_,
    by simp [length_toBytesLE], ?_, records, hrecs, rfl⟩
  · simp [record_stream, hwh, hrecs]
  · simp [read_header, h1, h2, supported_format_versions]

theorem record_stream_header_first_witness :
    (∀ m ∈ [((5 : Nat), [(7 : Nat)])], m.1 < 2 ^ 128 ∧ m.2.length < 2 ^ 64)
    ∧ ∃ header body, write_header = some header
      ∧ record_stream [((5 : Nat), [(7 : Nat)])] = some (header ++ body)
      ∧ header.length = 16
      ∧ read_header header = .ok (⟨MAGIC_NUMBER, 2⟩, [])
      ∧ ∃ records, record_stream_records [((5 : Nat), [(7 : Nat)])] = some records
          ∧ body = records :=
  ⟨by intro m hm; simp only [List.mem_singleton] at hm; subst hm; norm_num,
    record_stream_header_first [((5 : Nat), [(7 : Nat)])]
      (by intro m hm; simp only [List.mem_singleton] at hm; subst hm; norm_num)⟩
